import Mathlib

/-!
Shallow embedding of the minimint Lightning module
(`src/modules/minimint-ln/src/lib.rs`) and the consensus conflict filter
(`src/minimint/src/consensus/conflictfilter.rs`).

Opaque cryptographic values (hashes, public keys, ciphertexts, decryption
shares) and stable identifiers (contract ids, peer ids, out-points) are
embedded as natural numbers; byte strings as lists of naturals.  The
threshold-cryptography primitives, the canonical-encoding hash
`contract_id`, and the key/value batch semantics live in modules of the
repository that are not part of the two source files, so they are modelled
from the specification where noted.
-/

namespace Minimint

abbrev Hash := Nat
abbrev PubKey := Nat
abbrev Ciphertext := Nat
abbrev Share := Nat
abbrev ContractId := Nat
abbrev PeerId := Nat
abbrev OutPoint := Nat
abbrev Bytes := List Nat

/-- Association-list view of the key/value store: first binding for a key
wins, mirroring a map.  Modelled from the spec: the raw KV store offers
`get_value`, prefix scans, and batched `insert_new` / `maybe_update` /
`delete` operations. -/
abbrev Table (K V : Type) := List (K × V)

/-- Embeds `get_value`: first binding of the key, if any. -/
def lookupT {K V : Type} [DecidableEq K] : Table K V → K → Option V
  | [], _ => none
  | (k, v) :: rest, k' => if k' = k then some v else lookupT rest k'

/-- Write (or overwrite) the binding of a key. -/
def setT {K V : Type} [DecidableEq K] : Table K V → K → V → Table K V
  | [], k, v => [(k, v)]
  | (k0, v0) :: rest, k, v =>
    if k = k0 then (k, v) :: rest else (k0, v0) :: setT rest k v

/-- Modelled from the spec: `insert_new(k, v)` fails on collision with an
existing binding. -/
def insertNewT {K V : Type} [DecidableEq K] (t : Table K V) (k : K) (v : V) :
    Option (Table K V) :=
  match lookupT t k with
  | some _ => none
  | none => some ((k, v) :: t)

/-- Embeds `delete(k)`: drop every binding of the key. -/
def deleteT {K V : Type} [DecidableEq K] : Table K V → K → Table K V
  | [], _ => []
  | (k0, v0) :: rest, k =>
    if k = k0 then deleteT rest k else (k0, v0) :: deleteT rest k

/-- Wrapping subtraction on 64-bit unsigned amounts (`u64` millisatoshi),
with the overflow made explicit modulo `2 ^ 64`. -/
def u64sub (a b : Nat) : Nat := (a + 2 ^ 64 - b % 2 ^ 64) % 2 ^ 64

/-- Wrapping addition on 64-bit unsigned amounts. -/
def u64add (a b : Nat) : Nat := (a + b) % 2 ^ 64

/-! ## Contract data model

Modelled from the spec: the `contracts` module is not among the given
source files; §3.1 describes the three contract variants, the funded
variants, and the `Pending | Some | Invalid` decryption states, and the
field access paths follow the uses in `lib.rs`. -/

/-- State of the threshold decryption of an incoming contract's preimage. -/
inductive DecryptedPreimage
  | Pending
  | Some (preimage : PubKey)
  | Invalid
  deriving DecidableEq, Repr

/-- Outgoing HTLC-style contract: payment hash, timelock (block height),
gateway key and user key. -/
structure OutgoingContract where
  hash : Hash
  timelock : Nat
  gateway_key : PubKey
  user_key : PubKey
  deriving DecidableEq, Repr

/-- Simple account contract spendable by its key. -/
structure AccountContract where
  key : PubKey
  deriving DecidableEq, Repr

/-- Unfunded incoming contract as submitted in a transaction output:
expected preimage hash, threshold-encrypted preimage, gateway key. -/
structure IncomingContractCore where
  hash : Hash
  encrypted_preimage : Ciphertext
  gateway_key : PubKey
  deriving DecidableEq, Repr

/-- Funded incoming contract body; it additionally tracks the decryption
state of the preimage. -/
structure IncomingContract where
  hash : Hash
  encrypted_preimage : Ciphertext
  gateway_key : PubKey
  decrypted_preimage : DecryptedPreimage
  deriving DecidableEq, Repr

/-- Funded incoming contract with the out-point that created it. -/
structure FundedIncomingContract where
  contract : IncomingContract
  out_point : OutPoint
  deriving DecidableEq, Repr

/-- A contract as it appears inside a transaction output. -/
inductive Contract
  | Outgoing (c : OutgoingContract)
  | Account (c : AccountContract)
  | Incoming (c : IncomingContractCore)
  deriving DecidableEq, Repr

/-- A contract as stored in a contract account. -/
inductive FundedContract
  | Outgoing (c : OutgoingContract)
  | Account (c : AccountContract)
  | Incoming (c : FundedIncomingContract)
  deriving DecidableEq, Repr

/-- Modelled from the spec: `to_funded(out_point)` attaches the creating
out-point to incoming contracts; the decryption state starts `Pending`
(§3.1, §4.2). -/
def Contract.to_funded : Contract → OutPoint → FundedContract
  | .Outgoing c, _ => .Outgoing c
  | .Account c, _ => .Account c
  | .Incoming c, out_point =>
    .Incoming ⟨⟨c.hash, c.encrypted_preimage, c.gateway_key, .Pending⟩, out_point⟩

/-- Per-variant summary stored in an output outcome. -/
inductive ContractOutcome
  | Outgoing
  | Account
  | Incoming (d : DecryptedPreimage)
  deriving DecidableEq, Repr

/-- Modelled from the spec: `to_outcome()` summarises the contract variant;
for incoming contracts the outcome starts as `Incoming(Pending)` (§4.2). -/
def Contract.to_outcome : Contract → ContractOutcome
  | .Outgoing _ => .Outgoing
  | .Account _ => .Account
  | .Incoming _ => .Incoming .Pending

/-- The stored `ContractAccount { amount, contract }`. -/
structure ContractAccount where
  amount : Nat
  contract : FundedContract
  deriving DecidableEq, Repr

/-- The `OutputOutcome`: per-out-point record of what an output produced. -/
inductive OutputOutcome
  | Contract (id : ContractId) (outcome : ContractOutcome)
  | Offer (id : Hash)
  deriving DecidableEq, Repr

/-- An `IncomingContractOffer { hash, amount, encrypted_preimage }`. -/
structure IncomingContractOffer where
  hash : Hash
  amount : Nat
  encrypted_preimage : Ciphertext
  deriving DecidableEq, Repr

/-- A transaction input of the Lightning module.  The field name
`crontract_id` keeps the source's spelling. -/
structure ContractInput where
  crontract_id : ContractId
  amount : Nat
  witness : Option Bytes
  deriving DecidableEq, Repr

/-- Output of the Lightning module: a contract to fund or an offer. -/
structure ContractOutput where
  amount : Nat
  contract : Contract
  deriving DecidableEq, Repr

inductive ContractOrOfferOutput
  | Contract (c : ContractOutput)
  | Offer (o : IncomingContractOffer)
  deriving DecidableEq, Repr

/-- Consensus item: a peer's decryption share for one contract. -/
structure DecryptionShareCI where
  contract_id : ContractId
  share : Share
  deriving DecidableEq, Repr

/-- The `InputMeta`: the validated amount and the single authorizing key. -/
structure InputMeta where
  amount : Nat
  pub_key : PubKey
  deriving DecidableEq, Repr

inductive LightningModuleError
  | UnknownContract (id : ContractId)
  | InsufficientFunds (got want : Nat)
  | MissingPreimage
  | InvalidPreimage
  | ContractNotReady
  | ZeroOutput
  | InvalidEncryptedPreimage
  | InsufficientIncomingFunding (required given : Nat)
  | NoOffer (h : Hash)
  deriving DecidableEq, Repr

instance exceptDecEq {ε α : Type} [DecidableEq ε] [DecidableEq α] :
    DecidableEq (Except ε α) := fun x y =>
  match x, y with
  | .ok a, .ok b =>
    if h : a = b then isTrue (by rw [h])
    else isFalse (by intro he; cases he; exact h rfl)
  | .error a, .error b =>
    if h : a = b then isTrue (by rw [h])
    else isFalse (by intro he; cases he; exact h rfl)
  | .ok _, .error _ => isFalse (by intro he; cases he)
  | .error _, .ok _ => isFalse (by intro he; cases he)

/-- Modelled from the spec: the threshold-cryptography capability set
(`verify_ciphertext`, `decrypt_share`, `verify_decryption_share`,
`decrypt`), the SHA-256 hash, Schnorr public-key parsing, and the
canonical-encoding contract hash `contract_id` all live outside the two
given source files (§6, §9); they are taken as an abstract environment. -/
structure CryptoModel where
  sha256 : Bytes → Hash
  schnorrParse : Bytes → Option PubKey
  decrypt : List (PeerId × Share) → Ciphertext → Option Bytes
  verifyShare : PeerId → Share → Ciphertext → Bool
  decryptShare : Ciphertext → Share
  verifyCiphertext : Ciphertext → Bool
  contractId : Contract → ContractId

/-- The round-consensus record written by the wallet module (prefix 0x32);
this module only reads `block_height`. -/
structure RoundConsensus where
  block_height : Nat
  fee_rate : Nat
  randomness_beacon : Nat
  deriving DecidableEq, Repr

/-- The Lightning module's slice of the replicated KV store, one table per
key prefix, plus the (read-only) round-consensus record. -/
structure LnState where
  contracts : Table ContractId ContractAccount
  outcomes : Table OutPoint OutputOutcome
  offers : Table Hash IncomingContractOffer
  proposeShares : Table ContractId Share
  agreedShares : Table (ContractId × PeerId) Share
  round_consensus : Option RoundConsensus
  deriving DecidableEq, Repr

/-- Embeds `block_height()`: read the round-consensus record, defaulting to 0. -/
def blockHeight (s : LnState) : Nat :=
  (s.round_consensus.map (fun rc => rc.block_height)).getD 0

/-! ## Conflict filter (`src/minimint/src/consensus/conflictfilter.rs`) -/

/-- A transaction input as seen by the conflict filter: a mint note bundle
(the full `Coins<Coin>` value), a peg-in proof, or a Lightning contract
spend. -/
inductive TxInput
  | Mint (coins : List Nat)
  | Wallet (peg_in : Nat)
  | LN (input : ContractInput)
  deriving DecidableEq, Repr

structure Transaction where
  inputs : List TxInput
  deriving DecidableEq, Repr

/-- The three per-kind deduplication sets held by `ConflictFilter`
(`HashSet` membership embedded as list membership). -/
structure FilterState where
  coin_set : List (List Nat)
  peg_in_set : List Nat
  in_contract_set : List ContractId
  deriving DecidableEq, Repr

def emptyFilterState : FilterState := ⟨[], [], []⟩

/-- The input loop inside `ConflictFilter::next`: walk the transaction's
inputs, inserting each key into its set; on the first key already present,
stop and report rejection.  The sets mutated so far stay mutated, exactly
as the `&mut self` inserts do in the source. -/
def checkInputs : FilterState → List TxInput → Bool × FilterState
  | fs, [] => (true, fs)
  | fs, TxInput.Mint coins :: rest =>
    if coins ∈ fs.coin_set then (false, fs)
    else checkInputs { fs with coin_set := coins :: fs.coin_set } rest
  | fs, TxInput.Wallet peg_in :: rest =>
    if peg_in ∈ fs.peg_in_set then (false, fs)
    else checkInputs { fs with peg_in_set := peg_in :: fs.peg_in_set } rest
  | fs, TxInput.LN input :: rest =>
    if input.crontract_id ∈ fs.in_contract_set then (false, fs)
    else checkInputs { fs with in_contract_set := input.crontract_id :: fs.in_contract_set } rest

/-- One call of `ConflictFilter::next` on a nonempty stream: pull the next
transaction, run the input loop; on success yield it, otherwise return
`none` (with the sets as the loop left them and the transaction consumed). -/
def filterNext (fs : FilterState) (tx : Transaction) :
    Option Transaction × FilterState :=
  match checkInputs fs tx.inputs with
  | (true, fs') => (some tx, fs')
  | (false, fs') => (none, fs')

/-- What a standard iterator consumer (a `for` loop, `collect`) obtains
from the filter: transactions yielded by repeated `next` calls up to the
first `none`.  Since `next` returns `none` on a conflicting transaction,
the stream ends there. -/
def collectFiltered : FilterState → List Transaction → List Transaction
  | _, [] => []
  | fs, tx :: rest =>
    match checkInputs fs tx.inputs with
    | (true, fs') => tx :: collectFiltered fs' rest
    | (false, _) => []

/-- Modelled from the spec: the filter §4.4 describes — a conflicting
transaction alone is dropped (contributing no keys) and the remaining
transactions continue to be yielded, so the first-seen transaction for any
key wins.  Stated for comparison with `collectFiltered`. -/
def specFilter : FilterState → List Transaction → List Transaction
  | _, [] => []
  | fs, tx :: rest =>
    match checkInputs fs tx.inputs with
    | (true, fs') => tx :: specFilter fs' rest
    | (false, _) => specFilter fs rest

/-- The Lightning contract ids among a list of inputs. -/
def lnIdsOf (ins : List TxInput) : List ContractId :=
  ins.filterMap (fun i =>
    match i with
    | TxInput.LN input => some input.crontract_id
    | _ => none)

/-- The Lightning contract ids spent by a transaction's inputs. -/
def lnIds (tx : Transaction) : List ContractId :=
  lnIdsOf tx.inputs

/-! ## Lightning module operations (`src/modules/minimint-ln/src/lib.rs`) -/

/-- Embeds `consensus_proposal`: emit every proposed decryption share. -/
def consensus_proposal (s : LnState) : List DecryptionShareCI :=
  s.proposeShares.map (fun p => ⟨p.1, p.2⟩)

/-- Embeds `validate_decryption_share`: check a peer's share against its
public-key share and the contract's encrypted preimage. -/
def validate_decryption_share (cm : CryptoModel) (peer : PeerId)
    (share : Share) (message : Ciphertext) : Bool :=
  cm.verifyShare peer share message

/-- The `filter_map` body of `begin_consensus_epoch`: keep an item exactly
when its contract exists, is an incoming contract, and the share verifies;
every other item is logged and dropped.  Each kept item becomes an
insert-new of `AgreedDecryptionShare(contract_id, peer)`. -/
def begin_epoch_items (cm : CryptoModel) (s : LnState)
    (items : List (PeerId × DecryptionShareCI)) :
    List ((ContractId × PeerId) × Share) :=
  items.filterMap (fun pi =>
    match lookupT s.contracts pi.2.contract_id with
    | none => none
    | some contract =>
      match contract.contract with
      | FundedContract.Incoming incoming =>
        if validate_decryption_share cm pi.1 pi.2.share
            incoming.contract.encrypted_preimage then
          some ((pi.2.contract_id, pi.1), pi.2.share)
        else none
      | _ => none)

/-- Commit a list of insert-new batch items against the agreed-share
table; a collision fails the whole batch (`none`). -/
def commitAgreed (t : Table (ContractId × PeerId) Share) :
    List ((ContractId × PeerId) × Share) → Option (Table (ContractId × PeerId) Share)
  | [] => some t
  | (k, v) :: rest =>
    match insertNewT t k v with
    | none => none
    | some t' => commitAgreed t' rest

/-- Embeds `begin_consensus_epoch`: filter the batch of `(peer, share)` items and
commit the accepted ones as insert-new agreed-share rows. -/
def begin_consensus_epoch (cm : CryptoModel) (s : LnState)
    (items : List (PeerId × DecryptionShareCI)) : Option LnState :=
  (commitAgreed s.agreedShares (begin_epoch_items cm s items)).map
    (fun t => { s with agreedShares := t })

/-- Embeds `validate_input`: load the contract account, check funds, and determine
the authorizing public key by contract variant. -/
def validate_input (cm : CryptoModel) (s : LnState) (input : ContractInput) :
    Except LightningModuleError InputMeta :=
  match lookupT s.contracts input.crontract_id with
  | none => .error (.UnknownContract input.crontract_id)
  | some account =>
    if account.amount < input.amount then
      .error (.InsufficientFunds account.amount input.amount)
    else
      match account.contract with
      | FundedContract.Outgoing outgoing =>
        if outgoing.timelock > blockHeight s then
          match input.witness with
          | none => .error .MissingPreimage
          | some w =>
            if cm.sha256 w ≠ outgoing.hash then .error .InvalidPreimage
            else .ok ⟨input.amount, outgoing.gateway_key⟩
        else .ok ⟨input.amount, outgoing.user_key⟩
      | FundedContract.Account acc_contract => .ok ⟨input.amount, acc_contract.key⟩
      | FundedContract.Incoming incoming =>
        match incoming.contract.decrypted_preimage with
        | DecryptedPreimage.Pending => .error .ContractNotReady
        | DecryptedPreimage.Some preimage => .ok ⟨input.amount, preimage⟩
        | DecryptedPreimage.Invalid => .ok ⟨input.amount, incoming.contract.gateway_key⟩

/-- The `maybe_update` closure of `apply_input`: debit the account by the
validated amount with `u64` subtraction.  The source's closure panics when
the account is absent; validation precludes that, and the absent case
leaves the table unchanged here. -/
def debitContract (t : Table ContractId ContractAccount) (cid : ContractId)
    (amt : Nat) : Table ContractId ContractAccount :=
  match lookupT t cid with
  | some acc => setT t cid { acc with amount := u64sub acc.amount amt }
  | none => t

/-- Embeds `apply_input`: re-validate, then debit the contract account. -/
def apply_input (cm : CryptoModel) (s : LnState) (input : ContractInput) :
    Except LightningModuleError (LnState × InputMeta) :=
  match validate_input cm s input with
  | .error e => .error e
  | .ok meta =>
    .ok ({ s with contracts := debitContract s.contracts input.crontract_id meta.amount },
         meta)

/-- Embeds `validate_output`: offers need a well-formed encrypted preimage (value
0); contract outputs must be nonzero and incoming contracts must at least
fund their offer. -/
def validate_output (cm : CryptoModel) (s : LnState)
    (output : ContractOrOfferOutput) : Except LightningModuleError Nat :=
  match output with
  | ContractOrOfferOutput.Contract contract =>
    match contract.contract with
    | Contract.Incoming incoming =>
      (match lookupT s.offers incoming.hash with
       | none => .error (.NoOffer incoming.hash)
       | some offer =>
         if contract.amount < offer.amount then
           .error (.InsufficientIncomingFunding offer.amount contract.amount)
         else if contract.amount = 0 then .error .ZeroOutput
         else .ok contract.amount)
    | _ =>
      if contract.amount = 0 then .error .ZeroOutput
      else .ok contract.amount
  | ContractOrOfferOutput.Offer offer =>
    if ¬ cm.verifyCiphertext offer.encrypted_preimage then
      .error .InvalidEncryptedPreimage
    else .ok 0

/-- The `maybe_update` closure of `apply_output`: credit an existing
account or create a fresh one from the funded contract. -/
def upsertContract (t : Table ContractId ContractAccount) (cid : ContractId)
    (amt : Nat) (funded : FundedContract) : Table ContractId ContractAccount :=
  match lookupT t cid with
  | some acc => setT t cid { acc with amount := u64add acc.amount amt }
  | none => setT t cid ⟨amt, funded⟩

/-- Embeds `apply_output`: validate, then upsert the contract account, insert-new
the output outcome, and for incoming contracts propose the local decryption
share and consume the offer; offer outputs insert-new the offer row.
`none` models a failed insert-new (fatal batch commit failure). -/
def apply_output (cm : CryptoModel) (s : LnState)
    (output : ContractOrOfferOutput) (out_point : OutPoint) :
    Except LightningModuleError (Option (LnState × Nat)) :=
  match validate_output cm s output with
  | .error e => .error e
  | .ok amount =>
    match output with
    | ContractOrOfferOutput.Contract contract =>
      let cid := cm.contractId contract.contract
      let contracts' := upsertContract s.contracts cid amount
        (contract.contract.to_funded out_point)
      .ok <| (insertNewT s.outcomes out_point
          (OutputOutcome.Contract cid contract.contract.to_outcome)).bind
        (fun outcomes' =>
          match contract.contract with
          | Contract.Incoming incoming =>
            (insertNewT s.proposeShares cid
                (cm.decryptShare incoming.encrypted_preimage)).map
              (fun propose' =>
                ({ s with
                    contracts := contracts'
                    outcomes := outcomes'
                    proposeShares := propose'
                    offers := deleteT s.offers incoming.hash }, amount))
          | _ =>
            some ({ s with contracts := contracts', outcomes := outcomes' }, amount))
    | ContractOrOfferOutput.Offer offer =>
      .ok <| (insertNewT s.offers offer.hash offer).map
        (fun offers' => ({ s with offers := offers' }, amount))

/-- Keys in order of first appearance (iteration order of the grouped scan
made deterministic). -/
def dedupFirstAux (seen : List ContractId) : List ContractId → List ContractId
  | [] => []
  | c :: rest =>
    if c ∈ seen then dedupFirstAux seen rest
    else c :: dedupFirstAux (c :: seen) rest

def dedupFirst (l : List ContractId) : List ContractId := dedupFirstAux [] l

/-- All agreed shares of one contract, as `(peer, share)` pairs in table
order. -/
def groupShares (t : Table (ContractId × PeerId) Share) (cid : ContractId) :
    List (PeerId × Share) :=
  t.filterMap (fun p => if p.1.1 = cid then some (p.1.2, p.2) else none)

/-- Embeds `into_group_map`: the agreed-share table grouped by contract id. -/
def agreedGroups (t : Table (ContractId × PeerId) Share) :
    List (ContractId × List (PeerId × Share)) :=
  (dedupFirst (t.map (fun p => p.1.1))).map (fun cid => (cid, groupShares t cid))

/-- The classification cascade of `end_consensus_epoch`: plaintext length
other than 32 bytes is `Invalid`; a hash mismatch is `Invalid`; a plaintext
parsing as a Schnorr public key is `Some`; anything else is `Invalid`. -/
def classifyPreimage (cm : CryptoModel) (h : Hash) (preimage : Bytes) :
    DecryptedPreimage :=
  if preimage.length ≠ 32 then DecryptedPreimage.Invalid
  else if h ≠ cm.sha256 preimage then DecryptedPreimage.Invalid
  else
    match cm.schnorrParse preimage with
    | some preimage_key => DecryptedPreimage.Some preimage_key
    | none => DecryptedPreimage.Invalid

/-- The `maybe_update` closure on `ContractUpdateKey(out_point)`: overwrite
the incoming-contract outcome; the source panics (`none`) when the outcome
row is absent or not an incoming-contract outcome. -/
def setIncomingOutcome (t : Table OutPoint OutputOutcome) (out_point : OutPoint)
    (d : DecryptedPreimage) : Option (Table OutPoint OutputOutcome) :=
  match lookupT t out_point with
  | some (OutputOutcome.Contract cid (ContractOutcome.Incoming _)) =>
    some (setT t out_point (OutputOutcome.Contract cid (ContractOutcome.Incoming d)))
  | _ => none

/-- The per-contract body of the `end_consensus_epoch` loop: below the
threshold, leave everything in place; otherwise load the contract (the
source panics — `none` — when it is absent or not incoming), skip when the
preimage is no longer `Pending`, combine the shares once, skip on a combine
failure, and otherwise write the classified value both into the contract
account and into the matching output outcome. -/
def processGroup (cm : CryptoModel) (threshold : Nat) (s : LnState)
    (cid : ContractId) (shares : List (PeerId × Share)) : Option LnState :=
  if shares.length < threshold then some s
  else
    match lookupT s.contracts cid with
    | none => none
    | some contract =>
      match contract.contract with
      | FundedContract.Incoming incoming =>
        if incoming.contract.decrypted_preimage ≠ DecryptedPreimage.Pending then
          some s
        else
          match cm.decrypt shares incoming.contract.encrypted_preimage with
          | none => some s
          | some preimage =>
            let decrypted := classifyPreimage cm incoming.contract.hash preimage
            (setIncomingOutcome s.outcomes incoming.out_point decrypted).map
              (fun outcomes' =>
                { s with
                    contracts := setT s.contracts cid
                      { contract with
                          contract := FundedContract.Incoming
                            ⟨{ incoming.contract with decrypted_preimage := decrypted },
                              incoming.out_point⟩ }
                    outcomes := outcomes' })
      | _ => none

/-- Embeds `end_consensus_epoch`: group the agreed shares by contract and run the
per-contract body over each group. -/
def end_consensus_epoch (cm : CryptoModel) (threshold : Nat) (s : LnState) :
    Option LnState :=
  (agreedGroups s.agreedShares).foldlM
    (fun st g => processGroup cm threshold st g.1 g.2) s

/-- The state-changing operations of the `FederationModule` implementation
(`consensus_proposal`, `validate_input` and `validate_output` are
read-only). -/
inductive ModuleOp
  | applyInput (input : ContractInput)
  | applyOutput (output : ContractOrOfferOutput) (out_point : OutPoint)
  | beginEpoch (items : List (PeerId × DecryptionShareCI))
  | endEpoch

/-- One module operation as a state transformer: a validation error leaves
the state unchanged (the engine does not apply a failing transaction);
`none` is a fatal batch failure or panic. -/
def stepOp (cm : CryptoModel) (threshold : Nat) (s : LnState) :
    ModuleOp → Option LnState
  | ModuleOp.applyInput input =>
    match apply_input cm s input with
    | .ok (s', _) => some s'
    | .error _ => some s
  | ModuleOp.applyOutput output out_point =>
    match apply_output cm s output out_point with
    | .ok (some (s', _)) => some s'
    | .ok none => none
    | .error _ => some s
  | ModuleOp.beginEpoch items => begin_consensus_epoch cm s items
  | ModuleOp.endEpoch => end_consensus_epoch cm threshold s

/-- How one stored funded contract may relate to its successor across one
operation: unchanged, or an incoming contract whose `Pending` decryption
state was resolved to `Some` or `Invalid` (everything else intact). -/
def ContractEvolves (a b : FundedContract) : Prop :=
  a = b ∨
    ∃ ic out_point d,
      a = FundedContract.Incoming ⟨ic, out_point⟩ ∧
      ic.decrypted_preimage = DecryptedPreimage.Pending ∧
      b = FundedContract.Incoming ⟨{ ic with decrypted_preimage := d }, out_point⟩ ∧
      ((∃ k, d = DecryptedPreimage.Some k) ∨ d = DecryptedPreimage.Invalid)

/-- Pointwise lifting of `ContractEvolves` to the contract table; accounts
are never deleted. -/
def ContractsEvolve (t t' : Table ContractId ContractAccount) : Prop :=
  ∀ cid acc, lookupT t cid = some acc →
    ∃ acc', lookupT t' cid = some acc' ∧ ContractEvolves acc.contract acc'.contract

/-! ## Concrete environment used by witnesses and counterexamples -/

/-- Concrete crypto environment: the constant hash 0, Schnorr parsing that
yields key 9, threshold decryption producing 32 zero bytes, accepting
share verification, share 7, accepting ciphertext check, contract id 1. -/
def cmT : CryptoModel :=
  ⟨fun _ => 0, fun _ => some 9, fun _ _ => some (List.replicate 32 0),
   fun _ _ _ => true, fun _ => 7, fun _ => true, fun _ => 1⟩

def sEmpty : LnState := ⟨[], [], [], [], [], none⟩

/-- Outgoing contract: hash 0, timelock 100, gateway key 2, user key 3. -/
def accOut : ContractAccount := ⟨10, FundedContract.Outgoing ⟨0, 100, 2, 3⟩⟩

/-- State holding `accOut` under contract id 1 at block height 100. -/
def sOutT : LnState := ⟨[(1, accOut)], [], [], [], [], some ⟨100, 0, 0⟩⟩

/-- Incoming contract account: hash 0, ciphertext 0, gateway key 2,
pending preimage, created at out-point 4. -/
def accInc : ContractAccount :=
  ⟨100, FundedContract.Incoming ⟨⟨0, 0, 2, DecryptedPreimage.Pending⟩, 4⟩⟩

/-- State with the incoming contract 1, its pending outcome at out-point 4,
its proposed share, and one agreed share from peer 0. -/
def sIncT : LnState :=
  ⟨[(1, accInc)],
   [(4, OutputOutcome.Contract 1 (ContractOutcome.Incoming DecryptedPreimage.Pending))],
   [], [(1, 7)], [((1, 0), 7)], none⟩

def offerT : IncomingContractOffer := ⟨5, 10, 3⟩

/-- State already holding `offerT` under its hash 5. -/
def sOfferT : LnState := ⟨[], [], [(5, offerT)], [], [], none⟩

/-- State holding `accOut` under contract id 1 at block height 50 (before
the timelock 100). -/
def sOut50 : LnState := ⟨[(1, accOut)], [], [], [], [], some ⟨50, 0, 0⟩⟩

/-- State `sIncT` after its preimage was decrypted to `Some 9`: the agreed share
and the proposed share are still in place. -/
def sIncDone : LnState :=
  ⟨[(1, ⟨100, FundedContract.Incoming ⟨⟨0, 0, 2, DecryptedPreimage.Some 9⟩, 4⟩⟩)],
   [(4, OutputOutcome.Contract 1 (ContractOutcome.Incoming (DecryptedPreimage.Some 9)))],
   [], [(1, 7)], [((1, 0), 7)], none⟩

/-! ## Table lemmas -/

theorem lookupT_setT_self {K V : Type} [DecidableEq K] (t : Table K V) (k : K) (v : V) :
    lookupT (setT t k v) k = some v := by
  induction t with
  | nil => simp [setT, lookupT]
  | cons hd tl ih =>
    obtain ⟨k0, v0⟩ := hd
    by_cases h : k = k0
    · simp [setT, h, lookupT]
    · simp [setT, h, lookupT, ih]

theorem lookupT_setT_ne {K V : Type} [DecidableEq K] (t : Table K V) (k k' : K) (v : V)
    (h : k' ≠ k) : lookupT (setT t k v) k' = lookupT t k' := by
  induction t with
  | nil => simp [setT, lookupT, h]
  | cons hd tl ih =>
    obtain ⟨k0, v0⟩ := hd
    by_cases h0 : k = k0
    · subst h0
      simp [setT, lookupT, h]
    · by_cases h1 : k' = k0 <;> simp [setT, h0, lookupT, h1, ih]

theorem lookupT_insertNewT {K V : Type} [DecidableEq K] {t t' : Table K V} {k : K} {v : V}
    (h : insertNewT t k v = some t') :
    ∀ k' v', lookupT t k' = some v' → lookupT t' k' = some v' := by
  intro k' v' hl
  unfold insertNewT at h
  cases hk : lookupT t k with
  | some w => rw [hk] at h; exact absurd h (by simp)
  | none =>
    rw [hk] at h
    cases h
    have hne : k' ≠ k := by
      intro he
      rw [he, hk] at hl
      exact absurd hl (by simp)
    simpa [lookupT, hne] using hl

theorem lookupT_insertNewT_rev {K V : Type} [DecidableEq K] {t t' : Table K V} {k : K} {v : V}
    (h : insertNewT t k v = some t') :
    ∀ k' v', lookupT t' k' = some v' → lookupT t k' = some v' ∨ (k' = k ∧ v' = v) := by
  intro k' v' hl
  unfold insertNewT at h
  cases hk : lookupT t k with
  | some w => rw [hk] at h; exact absurd h (by simp)
  | none =>
    rw [hk] at h
    cases h
    by_cases hne : k' = k
    · right
      refine ⟨hne, ?_⟩
      rw [hne] at hl
      simpa [lookupT] using hl.symm
    · left
      simpa [lookupT, hne] using hl

/-! ## Claim theorems -/

/-- C1: On the stream `[spend 7; {note bundle 5, spend 7}; spend 9]` the
filter, consumed as an iterator, yields only the first transaction: the
conflicting second transaction makes `next` return `none`, which ends the
stream, so the non-conflicting third transaction is never yielded — while
the behavior the claim describes (`specFilter`) yields the first and third.
Moreover the rejected second transaction has already contributed its note
bundle `[5]` to the coin dedup set.  This contradicts the claim that the
filter "continues yielding the remaining transactions" and that "only
accepted transactions contribute their input keys". -/
theorem conflictFilter_truncates_and_pollutes :
    collectFiltered emptyFilterState
        [⟨[TxInput.LN ⟨7, 0, none⟩]⟩,
         ⟨[TxInput.Mint [5], TxInput.LN ⟨7, 0, none⟩]⟩,
         ⟨[TxInput.LN ⟨9, 0, none⟩]⟩] =
      [⟨[TxInput.LN ⟨7, 0, none⟩]⟩] ∧
    specFilter emptyFilterState
        [⟨[TxInput.LN ⟨7, 0, none⟩]⟩,
         ⟨[TxInput.Mint [5], TxInput.LN ⟨7, 0, none⟩]⟩,
         ⟨[TxInput.LN ⟨9, 0, none⟩]⟩] =
      [⟨[TxInput.LN ⟨7, 0, none⟩]⟩, ⟨[TxInput.LN ⟨9, 0, none⟩]⟩] ∧
    (checkInputs ⟨[], [], [7]⟩ [TxInput.Mint [5], TxInput.LN ⟨7, 0, none⟩]).1 = false ∧
    [5] ∈ (checkInputs ⟨[], [], [7]⟩ [TxInput.Mint [5], TxInput.LN ⟨7, 0, none⟩]).2.coin_set := by
  decide

/-- C2 counterexample: with an outgoing contract of timelock 100, gateway
key 2 and user key 3, at block height exactly 100 the code authorizes the
user key 3 — both with a valid witness preimage and with none at all — so
at `block_height == timelock` the contract is already expired, refuting
"the preimage path is still followed and the authorizing key is the
gateway key". -/
theorem validate_input_timelock_boundary_cex :
    blockHeight sOutT = 100 ∧
    lookupT sOutT.contracts 1 = some ⟨10, FundedContract.Outgoing ⟨0, 100, 2, 3⟩⟩ ∧
    cmT.sha256 [0] = 0 ∧
    validate_input cmT sOutT ⟨1, 5, some [0]⟩ = .ok ⟨5, 3⟩ ∧
    validate_input cmT sOutT ⟨1, 5, none⟩ = .ok ⟨5, 3⟩ ∧
    (3 : PubKey) ≠ 2 := by
  decide

/-- C2 amended: when the block height equals the outgoing contract's
timelock, the contract is expired — `validate_input` authorizes the user
key with no preimage checks; the preimage/gateway path requires the
timelock to be strictly greater than the block height. -/
theorem validate_input_at_timelock_is_expired
    (cm : CryptoModel) (s : LnState) (input : ContractInput)
    (acc : ContractAccount) (o : OutgoingContract)
    (hacc : lookupT s.contracts input.crontract_id = some acc)
    (hamt : ¬ acc.amount < input.amount)
    (hvar : acc.contract = FundedContract.Outgoing o)
    (htl : o.timelock = blockHeight s) :
    validate_input cm s input = .ok ⟨input.amount, o.user_key⟩ := by
  simp [validate_input, hacc, hamt, hvar, htl]

theorem validate_input_at_timelock_is_expired_witness :
    validate_input cmT sOutT ⟨1, 5, some [0]⟩ = .ok ⟨5, 3⟩ :=
  validate_input_at_timelock_is_expired cmT sOutT ⟨1, 5, some [0]⟩
    ⟨10, FundedContract.Outgoing ⟨0, 100, 2, 3⟩⟩ ⟨0, 100, 2, 3⟩
    (by decide) (by decide) (by decide) (by decide)

/-- C4: given an existing, sufficiently funded contract account,
`validate_input` determines the authorizing key by variant: an outgoing
contract before its timelock fails `MissingPreimage` without a witness,
fails `InvalidPreimage` when the witness does not hash to the contract
hash, and otherwise authorizes the gateway key; after expiry it authorizes
the user key with no preimage checks; an incoming contract fails
`ContractNotReady` while `Pending`, authorizes the decrypted preimage key
when `Some`, and the gateway key when `Invalid`. -/
theorem validate_input_authorizing_key
    (cm : CryptoModel) (s : LnState) (input : ContractInput)
    (acc : ContractAccount)
    (hacc : lookupT s.contracts input.crontract_id = some acc)
    (hamt : ¬ acc.amount < input.amount) :
    (∀ o, acc.contract = FundedContract.Outgoing o → blockHeight s < o.timelock →
      input.witness = none →
      validate_input cm s input = .error .MissingPreimage) ∧
    (∀ o w, acc.contract = FundedContract.Outgoing o → blockHeight s < o.timelock →
      input.witness = some w → cm.sha256 w ≠ o.hash →
      validate_input cm s input = .error .InvalidPreimage) ∧
    (∀ o w, acc.contract = FundedContract.Outgoing o → blockHeight s < o.timelock →
      input.witness = some w → cm.sha256 w = o.hash →
      validate_input cm s input = .ok ⟨input.amount, o.gateway_key⟩) ∧
    (∀ o, acc.contract = FundedContract.Outgoing o → ¬ blockHeight s < o.timelock →
      validate_input cm s input = .ok ⟨input.amount, o.user_key⟩) ∧
    (∀ fi, acc.contract = FundedContract.Incoming fi →
      fi.contract.decrypted_preimage = DecryptedPreimage.Pending →
      validate_input cm s input = .error .ContractNotReady) ∧
    (∀ fi k, acc.contract = FundedContract.Incoming fi →
      fi.contract.decrypted_preimage = DecryptedPreimage.Some k →
      validate_input cm s input = .ok ⟨input.amount, k⟩) ∧
    (∀ fi, acc.contract = FundedContract.Incoming fi →
      fi.contract.decrypted_preimage = DecryptedPreimage.Invalid →
      validate_input cm s input = .ok ⟨input.amount, fi.contract.gateway_key⟩) := by
  refine ⟨?_, ?_, ?_, ?_, ?_, ?_, ?_⟩
  · intro o ho hlt hw
    simp [validate_input, hacc, hamt, ho, hlt, hw]
  · intro o w ho hlt hw hne
    simp [validate_input, hacc, hamt, ho, hlt, hw, hne]
  · intro o w ho hlt hw heq
    simp [validate_input, hacc, hamt, ho, hlt, hw, heq]
  · intro o ho hnlt
    simp [validate_input, hacc, hamt, ho, hnlt]
  · intro fi hfi hd
    simp [validate_input, hacc, hamt, hfi, hd]
  · intro fi k hfi hd
    simp [validate_input, hacc, hamt, hfi, hd]
  · intro fi hfi hd
    simp [validate_input, hacc, hamt, hfi, hd]

theorem validate_input_authorizing_key_witness :
    validate_input cmT sOut50 ⟨1, 5, none⟩ = .error .MissingPreimage :=
  (validate_input_authorizing_key cmT sOut50 ⟨1, 5, none⟩ accOut
      (by decide) (by decide)).1
    ⟨0, 100, 2, 3⟩ (by decide) (by decide) rfl

/-- C3: the per-contract body of `end_consensus_epoch` (`processGroup`,
folded over the grouped agreed shares): below the configured threshold the
state — the shares included — is left untouched; at or above it, with the
contract present as a pending incoming contract and the combine
succeeding, the plaintext is classified (length ≠ 32 → `Invalid`; hash
mismatch → `Invalid`; a valid Schnorr key → `Some`; otherwise `Invalid`)
and that one value is written both into the contract account's
`decrypted_preimage` and into the matching out-point's outcome in the same
resulting state. -/
theorem end_epoch_group_decryption
    (cm : CryptoModel) (threshold : Nat) (s : LnState) (cid : ContractId)
    (shares : List (PeerId × Share)) :
    (shares.length < threshold → processGroup cm threshold s cid shares = some s) ∧
    (∀ acc fi preimage ocid d0,
      ¬ shares.length < threshold →
      lookupT s.contracts cid = some acc →
      acc.contract = FundedContract.Incoming fi →
      fi.contract.decrypted_preimage = DecryptedPreimage.Pending →
      cm.decrypt shares fi.contract.encrypted_preimage = some preimage →
      lookupT s.outcomes fi.out_point =
        some (OutputOutcome.Contract ocid (ContractOutcome.Incoming d0)) →
      processGroup cm threshold s cid shares = some
        { s with
            contracts := setT s.contracts cid
              { acc with contract := (FundedContract.Incoming
                  ⟨{ fi.contract with decrypted_preimage :=
                      classifyPreimage cm fi.contract.hash preimage }, fi.out_point⟩) }
            outcomes := setT s.outcomes fi.out_point
              (OutputOutcome.Contract ocid (ContractOutcome.Incoming
                (classifyPreimage cm fi.contract.hash preimage))) }) ∧
    (∀ h p, p.length ≠ 32 → classifyPreimage cm h p = DecryptedPreimage.Invalid) ∧
    (∀ h p, p.length = 32 → h ≠ cm.sha256 p →
      classifyPreimage cm h p = DecryptedPreimage.Invalid) ∧
    (∀ h p k, p.length = 32 → h = cm.sha256 p → cm.schnorrParse p = some k →
      classifyPreimage cm h p = DecryptedPreimage.Some k) ∧
    (∀ h p, p.length = 32 → h = cm.sha256 p → cm.schnorrParse p = none →
      classifyPreimage cm h p = DecryptedPreimage.Invalid) := by
  refine ⟨?_, ?_, ?_, ?_, ?_, ?_⟩
  · intro hlen
    simp [processGroup, hlen]
  · intro acc fi preimage ocid d0 hlen hacc hvar hpend hdec hout
    simp [processGroup, hlen, hacc, hvar, hpend, hdec, setIncomingOutcome, hout]
  · intro h p hl
    simp [classifyPreimage, hl]
  · intro h p hl hne
    simp [classifyPreimage, hl, hne]
  · intro h p k hl heq hparse
    simp [classifyPreimage, hl, heq, hparse]
  · intro h p hl heq hparse
    simp [classifyPreimage, hl, heq, hparse]

theorem end_epoch_group_decryption_witness :
    processGroup cmT 1 sIncT 1 [(0, 7)] = some
      ⟨[(1, ⟨100, FundedContract.Incoming ⟨⟨0, 0, 2, DecryptedPreimage.Some 9⟩, 4⟩⟩)],
       [(4, OutputOutcome.Contract 1 (ContractOutcome.Incoming (DecryptedPreimage.Some 9)))],
       [], [(1, 7)], [((1, 0), 7)], none⟩ :=
  (end_epoch_group_decryption cmT 1 sIncT 1 [(0, 7)]).2.1 accInc
    ⟨⟨0, 0, 2, DecryptedPreimage.Pending⟩, 4⟩ (List.replicate 32 0) 1
    DecryptedPreimage.Pending (by decide) (by decide) (by decide) (by decide)
    (by decide) (by decide)

theorem commitAgreed_preserves :
    ∀ (l : List ((ContractId × PeerId) × Share)) (t t' : Table (ContractId × PeerId) Share),
    commitAgreed t l = some t' →
    ∀ k v, lookupT t k = some v → lookupT t' k = some v := by
  intro l
  induction l with
  | nil =>
    intro t t' h k v hv
    cases h
    exact hv
  | cons kv rest ih =>
    intro t t' h k v hv
    obtain ⟨k0, v0⟩ := kv
    unfold commitAgreed at h
    cases hins : insertNewT t k0 v0 with
    | none =>
      rw [hins] at h
      cases h
    | some t1 =>
      rw [hins] at h
      exact ih t1 t' h k v (lookupT_insertNewT hins k v hv)

theorem commitAgreed_from :
    ∀ (l : List ((ContractId × PeerId) × Share)) (t t' : Table (ContractId × PeerId) Share),
    commitAgreed t l = some t' →
    ∀ k v, lookupT t' k = some v → lookupT t k = some v ∨ (k, v) ∈ l := by
  intro l
  induction l with
  | nil =>
    intro t t' h k v hv
    cases h
    exact Or.inl hv
  | cons kv rest ih =>
    intro t t' h k v hv
    obtain ⟨k0, v0⟩ := kv
    unfold commitAgreed at h
    cases hins : insertNewT t k0 v0 with
    | none =>
      rw [hins] at h
      cases h
    | some t1 =>
      rw [hins] at h
      rcases ih t1 t' h k v hv with h1 | h1
      · rcases lookupT_insertNewT_rev hins k v h1 with h2 | ⟨hk, hv'⟩
        · exact Or.inl h2
        · subst hk
          subst hv'
          exact Or.inr (List.mem_cons_self _ _)
      · exact Or.inr (List.mem_cons_of_mem _ h1)

/-- C6: `begin_consensus_epoch` records, as insert-new agreed-share rows,
exactly those batch items whose contract exists, is an incoming contract,
and whose share verifies against the peer's key share and the contract's
encrypted preimage; every other item is dropped without surfacing an error
and without writing any state: all other tables are untouched and existing
agreed-share rows are preserved, every new row coming from a kept item. -/
theorem begin_epoch_writes_exactly
    (cm : CryptoModel) (s : LnState) (items : List (PeerId × DecryptionShareCI)) :
    (∀ cid peer sh,
      ((cid, peer), sh) ∈ begin_epoch_items cm s items ↔
        ∃ ds : DecryptionShareCI, (peer, ds) ∈ items ∧ ds.contract_id = cid ∧
          ds.share = sh ∧
          ∃ acc fi, lookupT s.contracts cid = some acc ∧
            acc.contract = FundedContract.Incoming fi ∧
            validate_decryption_share cm peer sh fi.contract.encrypted_preimage = true) ∧
    (∀ s', begin_consensus_epoch cm s items = some s' →
      s'.contracts = s.contracts ∧ s'.outcomes = s.outcomes ∧
      s'.offers = s.offers ∧ s'.proposeShares = s.proposeShares ∧
      s'.round_consensus = s.round_consensus ∧
      (∀ k v, lookupT s.agreedShares k = some v → lookupT s'.agreedShares k = some v) ∧
      (∀ k v, lookupT s'.agreedShares k = some v →
        lookupT s.agreedShares k = some v ∨ (k, v) ∈ begin_epoch_items cm s items)) := by
  constructor
  · intro cid peer sh
    constructor
    · intro hmem
      rw [begin_epoch_items, List.mem_filterMap] at hmem
      obtain ⟨⟨p, ds⟩, hin, hf⟩ := hmem
      dsimp only at hf
      split at hf
      · cases hf
      · rename_i acc hl
        split at hf
        · rename_i fi hc
          split at hf
          · rename_i hv
            simp only [Option.some.injEq, Prod.mk.injEq] at hf
            obtain ⟨⟨h1, h2⟩, h3⟩ := hf
            subst h1
            subst h2
            subst h3
            exact ⟨ds, hin, rfl, rfl, acc, fi, hl, hc, hv⟩
          · cases hf
        · cases hf
    · rintro ⟨ds, hin, hcid, hsh, acc, fi, hl, hc, hv⟩
      subst hcid
      subst hsh
      rw [begin_epoch_items, List.mem_filterMap]
      refine ⟨(peer, ds), hin, ?_⟩
      dsimp only
      simp [hl, hc, hv]
  · intro s' h
    unfold begin_consensus_epoch at h
    cases hcommit : commitAgreed s.agreedShares (begin_epoch_items cm s items) with
    | none =>
      rw [hcommit] at h
      cases h
    | some t =>
      rw [hcommit] at h
      simp only [Option.map_some'] at h
      obtain rfl : ({ s with agreedShares := t } : LnState) = s' := by
        injection h
      refine ⟨rfl, rfl, rfl, rfl, rfl, ?_, ?_⟩
      · intro k v hv
        exact commitAgreed_preserves _ _ _ hcommit k v hv
      · intro k v hv
        exact commitAgreed_from _ _ _ hcommit k v hv

theorem begin_epoch_writes_exactly_witness :
    ((1, 0), 7) ∈ begin_epoch_items cmT sIncT [(0, ⟨1, 7⟩)] ∧
    ∀ s', begin_consensus_epoch cmT sEmpty [] = some s' → s'.contracts = sEmpty.contracts := by
  constructor
  · exact ((begin_epoch_writes_exactly cmT sIncT [(0, ⟨1, 7⟩)]).1 1 0 7).2
      ⟨⟨1, 7⟩, by decide, rfl, rfl,
        accInc, ⟨⟨0, 0, 2, DecryptedPreimage.Pending⟩, 4⟩, by decide, by decide, by decide⟩
  · intro s' h
    exact ((begin_epoch_writes_exactly cmT sEmpty []).2 s' h).1

theorem processGroup_frame (cm : CryptoModel) (th : Nat) (st : LnState)
    (cid : ContractId) (shares : List (PeerId × Share)) (st' : LnState)
    (h : processGroup cm th st cid shares = some st') :
    st'.proposeShares = st.proposeShares ∧ st'.agreedShares = st.agreedShares ∧
    st'.offers = st.offers ∧ st'.round_consensus = st.round_consensus := by
  unfold processGroup at h
  split at h
  · cases h
    exact ⟨rfl, rfl, rfl, rfl⟩
  · split at h
    · cases h
    · split at h
      · split at h
        · cases h
          exact ⟨rfl, rfl, rfl, rfl⟩
        · split at h
          · cases h
            exact ⟨rfl, rfl, rfl, rfl⟩
          · simp only [Option.map_eq_some'] at h
            obtain ⟨t, hset, heq⟩ := h
            subst heq
            exact ⟨rfl, rfl, rfl, rfl⟩
      · cases h

theorem foldGroups_frame (cm : CryptoModel) (th : Nat) :
    ∀ (gs : List (ContractId × List (PeerId × Share))) (st st' : LnState),
    gs.foldlM (fun st g => processGroup cm th st g.1 g.2) st = some st' →
    st'.proposeShares = st.proposeShares ∧ st'.agreedShares = st.agreedShares ∧
    st'.offers = st.offers ∧ st'.round_consensus = st.round_consensus := by
  intro gs
  induction gs with
  | nil =>
    intro st st' h
    cases h
    exact ⟨rfl, rfl, rfl, rfl⟩
  | cons g gs ih =>
    intro st st' h
    rw [List.foldlM_cons] at h
    cases hg : processGroup cm th st g.1 g.2 with
    | none =>
      rw [hg] at h
      cases h
    | some st1 =>
      rw [hg] at h
      simp only [Option.bind_eq_bind, Option.some_bind] at h
      obtain ⟨h1, h2, h3, h4⟩ := processGroup_frame cm th st g.1 g.2 st1 hg
      obtain ⟨g1, g2, g3, g4⟩ := ih st1 st' h
      exact ⟨g1.trans h1, g2.trans h2, g3.trans h3, g4.trans h4⟩

theorem endEpoch_frame (cm : CryptoModel) (th : Nat) (s s' : LnState)
    (h : end_consensus_epoch cm th s = some s') :
    s'.proposeShares = s.proposeShares ∧ s'.agreedShares = s.agreedShares ∧
    s'.offers = s.offers ∧ s'.round_consensus = s.round_consensus :=
  foldGroups_frame cm th _ s s' h

/-- C7 counterexample: in the concrete state `sIncT` (incoming contract 1,
threshold 1, one agreed share) `end_consensus_epoch` combines successfully
— the decrypted preimage becomes `Some 9` — yet the
`ProposeDecryptionShare(1)` row is still present afterwards and the share
still appears in the next consensus proposal, refuting "the row is removed
after the successful combine". -/
theorem end_epoch_keeps_propose_share_cex :
    (end_consensus_epoch cmT 1 sIncT).map (fun s' => lookupT s'.proposeShares 1) =
      some (some 7) ∧
    (end_consensus_epoch cmT 1 sIncT).map (fun s' => lookupT s'.contracts 1) =
      some (some ⟨100, FundedContract.Incoming ⟨⟨0, 0, 2, DecryptedPreimage.Some 9⟩, 4⟩⟩) ∧
    (end_consensus_epoch cmT 1 sIncT).map consensus_proposal = some [⟨1, 7⟩] := by
  decide

/-- C7 amended: `end_consensus_epoch` never modifies the
`ProposeDecryptionShare` table — also after a successful combine — so the
peer's own share keeps appearing in later consensus proposals. -/
theorem end_epoch_preserves_propose_shares
    (cm : CryptoModel) (th : Nat) (s s' : LnState)
    (h : end_consensus_epoch cm th s = some s') :
    s'.proposeShares = s.proposeShares ∧ consensus_proposal s' = consensus_proposal s := by
  obtain ⟨h1, _, _, _⟩ := endEpoch_frame cm th s s' h
  exact ⟨h1, by rw [consensus_proposal, consensus_proposal, h1]⟩

theorem end_epoch_preserves_propose_shares_witness :
    consensus_proposal
        ⟨[(1, ⟨100, FundedContract.Incoming ⟨⟨0, 0, 2, DecryptedPreimage.Some 9⟩, 4⟩⟩)],
         [(4, OutputOutcome.Contract 1 (ContractOutcome.Incoming (DecryptedPreimage.Some 9)))],
         [], [(1, 7)], [((1, 0), 7)], none⟩ =
      consensus_proposal sIncT :=
  (end_epoch_preserves_propose_shares cmT 1 sIncT _ (by decide)).2

/-- C8 counterexample: registering the offer with hash 5 once succeeds and
stores it; applying the same offer output again fails the batch (insert-new
collision, `.ok none`) instead of leaving the store in the same state — so
re-registering an existing offer is not idempotent. -/
theorem apply_output_offer_duplicate_cex :
    apply_output cmT sEmpty (ContractOrOfferOutput.Offer offerT) 0 =
      .ok (some (sOfferT, 0)) ∧
    apply_output cmT sOfferT (ContractOrOfferOutput.Offer offerT) 1 = .ok none := by
  decide

/-- C8 amended: applying an Offer output whose hash already has a stored
offer row fails the batch commit via insert-new collision (modelled as
`.ok none`) rather than being idempotent. -/
theorem apply_output_offer_duplicate_fails
    (cm : CryptoModel) (s : LnState) (offer : IncomingContractOffer)
    (out_point : OutPoint) (v : IncomingContractOffer)
    (hver : cm.verifyCiphertext offer.encrypted_preimage = true)
    (hdup : lookupT s.offers offer.hash = some v) :
    apply_output cm s (ContractOrOfferOutput.Offer offer) out_point = .ok none := by
  simp [apply_output, validate_output, hver, insertNewT, hdup]

theorem apply_output_offer_duplicate_fails_witness :
    apply_output cmT sOfferT (ContractOrOfferOutput.Offer offerT) 2 = .ok none :=
  apply_output_offer_duplicate_fails cmT sOfferT offerT 2 offerT (by decide) (by decide)

theorem validate_input_ok_funds (cm : CryptoModel) (s : LnState)
    (input : ContractInput) (meta : InputMeta)
    (h : validate_input cm s input = .ok meta) :
    ∃ acc, lookupT s.contracts input.crontract_id = some acc ∧
      ¬ acc.amount < input.amount ∧ meta.amount = input.amount := by
  unfold validate_input at h
  split at h
  · cases h
  · rename_i acc hacc
    refine ⟨acc, hacc, ?_⟩
    split at h
    · cases h
    · rename_i hamt
      refine ⟨hamt, ?_⟩
      split at h
      · split at h
        · split at h
          · cases h
          · split at h
            · cases h
            · cases h
              rfl
        · cases h
          rfl
      · cases h
        rfl
      · split at h
        · cases h
        · cases h
          rfl
        · cases h
          rfl

theorem apply_input_ok_shape (cm : CryptoModel) (s : LnState)
    (input : ContractInput) (s' : LnState) (meta : InputMeta)
    (h : apply_input cm s input = .ok (s', meta)) :
    validate_input cm s input = .ok meta ∧
    s' = { s with contracts := debitContract s.contracts input.crontract_id meta.amount } := by
  unfold apply_input at h
  split at h
  · cases h
  · rename_i meta0 hval
    simp only [Except.ok.injEq, Prod.mk.injEq] at h
    obtain ⟨h1, h2⟩ := h
    subst h2
    exact ⟨hval, h1.symm⟩

theorem apply_output_ok_shape (cm : CryptoModel) (s : LnState)
    (output : ContractOrOfferOutput) (out_point : OutPoint)
    (s' : LnState) (amt : Nat)
    (h : apply_output cm s output out_point = .ok (some (s', amt))) :
    (∀ c, output = ContractOrOfferOutput.Contract c →
      s'.contracts = upsertContract s.contracts (cm.contractId c.contract) amt
        (c.contract.to_funded out_point)) ∧
    (∀ o, output = ContractOrOfferOutput.Offer o → s'.contracts = s.contracts) ∧
    s'.agreedShares = s.agreedShares ∧ s'.round_consensus = s.round_consensus := by
  unfold apply_output at h
  split at h
  · cases h
  · rename_i amount hval
    split at h
    · rename_i contract
      simp only [Except.ok.injEq] at h
      rw [Option.bind_eq_some] at h
      obtain ⟨outcomes', hins, hf⟩ := h
      split at hf
      · rename_i incoming hinc
        simp only [Option.map_eq_some'] at hf
        obtain ⟨propose', hins2, heq⟩ := hf
        simp only [Prod.mk.injEq] at heq
        obtain ⟨heq1, heq2⟩ := heq
        subst heq2
        subst heq1
        refine ⟨?_, ?_, rfl, rfl⟩
        · intro c hc
          cases hc
          rfl
        · intro o ho
          cases ho
      · simp only [Option.some.injEq, Prod.mk.injEq] at hf
        obtain ⟨heq1, heq2⟩ := hf
        subst heq2
        subst heq1
        refine ⟨?_, ?_, rfl, rfl⟩
        · intro c hc
          cases hc
          rfl
        · intro o ho
          cases ho
    · rename_i offer
      simp only [Except.ok.injEq] at h
      rw [Option.map_eq_some'] at h
      obtain ⟨offers', hins, heq⟩ := h
      simp only [Prod.mk.injEq] at heq
      obtain ⟨heq1, heq2⟩ := heq
      subst heq2
      subst heq1
      refine ⟨?_, ?_, rfl, rfl⟩
      · intro c hc
        cases hc
      · intro o ho
        rfl

theorem beginEpoch_agreed_preserved (cm : CryptoModel) (s : LnState)
    (items : List (PeerId × DecryptionShareCI)) (s' : LnState)
    (h : begin_consensus_epoch cm s items = some s') :
    ∀ k v, lookupT s.agreedShares k = some v → lookupT s'.agreedShares k = some v := by
  unfold begin_consensus_epoch at h
  cases hcommit : commitAgreed s.agreedShares (begin_epoch_items cm s items) with
  | none =>
    rw [hcommit] at h
    cases h
  | some t =>
    rw [hcommit] at h
    simp only [Option.map_some'] at h
    obtain rfl : ({ s with agreedShares := t } : LnState) = s' := by
      injection h
    exact commitAgreed_preserves _ _ _ hcommit

/-- C10: no module operation deletes an `AgreedDecryptionShare` row —
every step preserves existing rows, and `end_consensus_epoch` leaves the
agreed-share table exactly unchanged even after a successful combine, so a
later epoch re-loads the same at-or-above-threshold group; for such a
re-loaded group of a decrypted (non-`Pending`) incoming contract only the
guard makes the per-contract body a no-op. -/
theorem agreed_shares_never_deleted (cm : CryptoModel) (th : Nat) :
    (∀ s op s', stepOp cm th s op = some s' →
      ∀ k v, lookupT s.agreedShares k = some v → lookupT s'.agreedShares k = some v) ∧
    (∀ s s', end_consensus_epoch cm th s = some s' →
      s'.agreedShares = s.agreedShares) ∧
    (∀ s cid shares acc fi, ¬ shares.length < th →
      lookupT s.contracts cid = some acc →
      acc.contract = FundedContract.Incoming fi →
      fi.contract.decrypted_preimage ≠ DecryptedPreimage.Pending →
      processGroup cm th s cid shares = some s) := by
  refine ⟨?_, ?_, ?_⟩
  · intro s op s' hstep k v hv
    cases op with
    | applyInput input =>
      simp only [stepOp] at hstep
      cases happ : apply_input cm s input with
      | error e =>
        rw [happ] at hstep
        cases hstep
        exact hv
      | ok p =>
        rw [happ] at hstep
        cases hstep
        obtain ⟨_, hs⟩ := apply_input_ok_shape cm s input p.1 p.2 (by rw [happ])
        rw [hs]
        exact hv
    | applyOutput output out_point =>
      simp only [stepOp] at hstep
      cases happ : apply_output cm s output out_point with
      | error e =>
        rw [happ] at hstep
        cases hstep
        exact hv
      | ok r =>
        cases r with
        | none =>
          rw [happ] at hstep
          cases hstep
        | some p =>
          rw [happ] at hstep
          cases hstep
          obtain ⟨_, _, hagreed, _⟩ :=
            apply_output_ok_shape cm s output out_point p.1 p.2 (by rw [happ])
          rw [hagreed]
          exact hv
    | beginEpoch items =>
      simp only [stepOp] at hstep
      exact beginEpoch_agreed_preserved cm s items s' hstep k v hv
    | endEpoch =>
      simp only [stepOp] at hstep
      rw [(endEpoch_frame cm th s s' hstep).2.1]
      exact hv
  · intro s s' h
    exact (endEpoch_frame cm th s s' h).2.1
  · intro s cid shares acc fi hlen hacc hvar hpend
    simp [processGroup, hlen, hacc, hvar, hpend]

theorem agreed_shares_never_deleted_witness :
    processGroup cmT 1 sIncDone 1 [(0, 7)] = some sIncDone :=
  (agreed_shares_never_deleted cmT 1).2.2 sIncDone 1 [(0, 7)]
    ⟨100, FundedContract.Incoming ⟨⟨0, 0, 2, DecryptedPreimage.Some 9⟩, 4⟩⟩
    ⟨⟨0, 0, 2, DecryptedPreimage.Some 9⟩, 4⟩
    (by decide) (by decide) (by decide) (by decide)

theorem classifyPreimage_resolved (cm : CryptoModel) (h : Hash) (p : Bytes) :
    (∃ k, classifyPreimage cm h p = DecryptedPreimage.Some k) ∨
      classifyPreimage cm h p = DecryptedPreimage.Invalid := by
  unfold classifyPreimage
  split
  · exact Or.inr rfl
  · split
    · exact Or.inr rfl
    · split
      · rename_i k _
        exact Or.inl ⟨k, rfl⟩
      · exact Or.inr rfl

theorem ContractEvolves_refl (a : FundedContract) : ContractEvolves a a :=
  Or.inl rfl

theorem ContractEvolves_trans {a b c : FundedContract}
    (hab : ContractEvolves a b) (hbc : ContractEvolves b c) : ContractEvolves a c := by
  rcases hab with rfl | ⟨ic, op, d, ha, hpend, hb, hres⟩
  · exact hbc
  · rcases hbc with rfl | ⟨ic2, op2, d2, hb2, hpend2, hc2, hres2⟩
    · exact Or.inr ⟨ic, op, d, ha, hpend, hb, hres⟩
    · rw [hb] at hb2
      obtain ⟨h1, h2⟩ : ({ ic with decrypted_preimage := d } : IncomingContract) = ic2 ∧ op = op2 := by
        injection hb2 with hb3
        injection hb3 with h1 h2
        exact ⟨h1, h2⟩
      exfalso
      rcases hres with ⟨k, rfl⟩ | rfl
      · rw [← h1] at hpend2
        cases hpend2
      · rw [← h1] at hpend2
        cases hpend2

theorem ContractsEvolve_refl (t : Table ContractId ContractAccount) :
    ContractsEvolve t t :=
  fun _ acc h => ⟨acc, h, ContractEvolves_refl _⟩

theorem ContractsEvolve_trans {t1 t2 t3 : Table ContractId ContractAccount}
    (h12 : ContractsEvolve t1 t2) (h23 : ContractsEvolve t2 t3) :
    ContractsEvolve t1 t3 := by
  intro cid acc h1
  obtain ⟨acc2, h2, e12⟩ := h12 cid acc h1
  obtain ⟨acc3, h3, e23⟩ := h23 cid acc2 h2
  exact ⟨acc3, h3, ContractEvolves_trans e12 e23⟩

theorem debitContract_evolves (t : Table ContractId ContractAccount)
    (cid : ContractId) (amt : Nat) :
    ContractsEvolve t (debitContract t cid amt) := by
  intro cid' acc' hl'
  unfold debitContract
  cases hl : lookupT t cid with
  | none => exact ⟨acc', hl', ContractEvolves_refl _⟩
  | some acc =>
    by_cases hc : cid' = cid
    · subst hc
      rw [hl'] at hl
      obtain rfl := Option.some.inj hl
      exact ⟨_, lookupT_setT_self t cid' _, Or.inl rfl⟩
    · refine ⟨acc', ?_, ContractEvolves_refl _⟩
      rw [lookupT_setT_ne t cid cid' _ hc]
      exact hl'

theorem upsertContract_evolves (t : Table ContractId ContractAccount)
    (cid : ContractId) (amt : Nat) (funded : FundedContract) :
    ContractsEvolve t (upsertContract t cid amt funded) := by
  intro cid' acc' hl'
  unfold upsertContract
  cases hl : lookupT t cid with
  | none =>
    by_cases hc : cid' = cid
    · subst hc
      rw [hl'] at hl
      cases hl
    · refine ⟨acc', ?_, ContractEvolves_refl _⟩
      rw [lookupT_setT_ne t cid cid' _ hc]
      exact hl'
  | some acc =>
    by_cases hc : cid' = cid
    · subst hc
      rw [hl'] at hl
      obtain rfl := Option.some.inj hl
      exact ⟨_, lookupT_setT_self t cid' _, Or.inl rfl⟩
    · refine ⟨acc', ?_, ContractEvolves_refl _⟩
      rw [lookupT_setT_ne t cid cid' _ hc]
      exact hl'

theorem beginEpoch_contracts (cm : CryptoModel) (s : LnState)
    (items : List (PeerId × DecryptionShareCI)) (s' : LnState)
    (h : begin_consensus_epoch cm s items = some s') : s'.contracts = s.contracts := by
  unfold begin_consensus_epoch at h
  cases hcommit : commitAgreed s.agreedShares (begin_epoch_items cm s items) with
  | none =>
    rw [hcommit] at h
    cases h
  | some t =>
    rw [hcommit] at h
    simp only [Option.map_some'] at h
    obtain rfl : ({ s with agreedShares := t } : LnState) = s' := by
      injection h
    rfl

theorem processGroup_evolves (cm : CryptoModel) (th : Nat) (st : LnState)
    (cid : ContractId) (shares : List (PeerId × Share)) (st' : LnState)
    (h : processGroup cm th st cid shares = some st') :
    ContractsEvolve st.contracts st'.contracts := by
  unfold processGroup at h
  split at h
  · cases h
    exact ContractsEvolve_refl _
  · split at h
    · cases h
    · rename_i contract hacc
      split at h
      · rename_i incoming hfi
        split at h
        · cases h
          exact ContractsEvolve_refl _
        · rename_i hpend
          split at h
          · cases h
            exact ContractsEvolve_refl _
          · rename_i preimage hdec
            simp only [Option.map_eq_some'] at h
            obtain ⟨t, hset, heq⟩ := h
            subst heq
            intro cid' acc' hl'
            by_cases hc : cid' = cid
            · subst hc
              rw [hacc] at hl'
              obtain rfl := Option.some.inj hl'
              refine ⟨_, lookupT_setT_self st.contracts cid' _, Or.inr
                ⟨incoming.contract, incoming.out_point,
                 classifyPreimage cm incoming.contract.hash preimage, hfi,
                 not_ne_iff.mp hpend, rfl, classifyPreimage_resolved cm _ _⟩⟩
            · refine ⟨acc', ?_, ContractEvolves_refl _⟩
              show lookupT (setT st.contracts cid _) cid' = some acc'
              rw [lookupT_setT_ne st.contracts cid cid' _ hc]
              exact hl'
      · cases h

theorem foldGroups_evolves (cm : CryptoModel) (th : Nat) :
    ∀ (gs : List (ContractId × List (PeerId × Share))) (st st' : LnState),
    gs.foldlM (fun st g => processGroup cm th st g.1 g.2) st = some st' →
    ContractsEvolve st.contracts st'.contracts := by
  intro gs
  induction gs with
  | nil =>
    intro st st' h
    cases h
    exact ContractsEvolve_refl _
  | cons g gs ih =>
    intro st st' h
    rw [List.foldlM_cons] at h
    cases hg : processGroup cm th st g.1 g.2 with
    | none =>
      rw [hg] at h
      cases h
    | some st1 =>
      rw [hg] at h
      simp only [Option.bind_eq_bind, Option.some_bind] at h
      exact ContractsEvolve_trans (processGroup_evolves cm th st g.1 g.2 st1 hg)
        (ih st1 st' h)

/-- C5: across every module operation, every stored contract account's
funded contract either is unchanged or is an incoming contract whose
`decrypted_preimage` moved from `Pending` to `Some` or `Invalid` with all
other fields intact (`ContractEvolves`); the relation is transitive, and a
resolved (non-`Pending`) incoming contract can never change again, so over
any sequence of operations the variant never changes and the preimage
field changes at most once, only out of `Pending`. -/
theorem contract_variant_preimage_invariant (cm : CryptoModel) (th : Nat) :
    (∀ s op s', stepOp cm th s op = some s' →
      ContractsEvolve s.contracts s'.contracts) ∧
    (∀ a b c, ContractEvolves a b → ContractEvolves b c → ContractEvolves a c) ∧
    (∀ a b, ContractEvolves a b → ∀ ic out_point,
      a = FundedContract.Incoming ⟨ic, out_point⟩ →
      ic.decrypted_preimage ≠ DecryptedPreimage.Pending → b = a) := by
  refine ⟨?_, fun a b c => ContractEvolves_trans, ?_⟩
  · intro s op s' hstep
    cases op with
    | applyInput input =>
      simp only [stepOp] at hstep
      cases happ : apply_input cm s input with
      | error e =>
        rw [happ] at hstep
        cases hstep
        exact ContractsEvolve_refl _
      | ok p =>
        rw [happ] at hstep
        cases hstep
        obtain ⟨_, hs⟩ := apply_input_ok_shape cm s input p.1 p.2 (by rw [happ])
        rw [hs]
        exact debitContract_evolves s.contracts input.crontract_id p.2.amount
    | applyOutput output out_point =>
      simp only [stepOp] at hstep
      cases happ : apply_output cm s output out_point with
      | error e =>
        rw [happ] at hstep
        cases hstep
        exact ContractsEvolve_refl _
      | ok r =>
        cases r with
        | none =>
          rw [happ] at hstep
          cases hstep
        | some p =>
          rw [happ] at hstep
          cases hstep
          obtain ⟨hcon, hoff, _, _⟩ :=
            apply_output_ok_shape cm s output out_point p.1 p.2 (by rw [happ])
          cases output with
          | Contract c =>
            rw [hcon c rfl]
            exact upsertContract_evolves s.contracts (cm.contractId c.contract) p.2
              (c.contract.to_funded out_point)
          | Offer o =>
            rw [hoff o rfl]
            exact ContractsEvolve_refl _
    | beginEpoch items =>
      simp only [stepOp] at hstep
      rw [beginEpoch_contracts cm s items s' hstep]
      exact ContractsEvolve_refl _
    | endEpoch =>
      simp only [stepOp] at hstep
      exact foldGroups_evolves cm th _ s s' hstep
  · intro a b hab ic out_point ha hres
    rcases hab with rfl | ⟨ic2, op2, d2, ha2, hpend2, hb2, _⟩
    · rfl
    · exfalso
      rw [ha] at ha2
      obtain ⟨h1, _⟩ : ic = ic2 ∧ out_point = op2 := by
        injection ha2 with ha3
        injection ha3 with h1 h2
        exact ⟨h1, h2⟩
      rw [← h1] at hpend2
      exact hres hpend2

theorem contract_variant_preimage_invariant_witness :
    ContractsEvolve sIncT.contracts sIncDone.contracts :=
  (contract_variant_preimage_invariant cmT 1).1 sIncT ModuleOp.endEpoch sIncDone
    (by decide)

theorem u64sub_exact {a b : Nat} (hba : b ≤ a) (ha : a < 2 ^ 64) :
    u64sub a b = a - b := by
  unfold u64sub
  have hb : b % 2 ^ 64 = b := Nat.mod_eq_of_lt (lt_of_le_of_lt hba ha)
  rw [hb]
  have h1 : a + 2 ^ 64 - b = (a - b) + 2 ^ 64 := by omega
  rw [h1, Nat.add_mod_right]
  exact Nat.mod_eq_of_lt (lt_of_le_of_lt (Nat.sub_le a b) ha)

theorem checkInputs_true_spec :
    ∀ (ins : List TxInput) (fs fs' : FilterState),
    checkInputs fs ins = (true, fs') →
    (lnIdsOf ins).Nodup ∧
    (∀ c, c ∈ lnIdsOf ins → c ∉ fs.in_contract_set) ∧
    (∀ c, c ∈ fs.in_contract_set ∨ c ∈ lnIdsOf ins → c ∈ fs'.in_contract_set) := by
  intro ins
  induction ins with
  | nil =>
    intro fs fs' h
    obtain ⟨-, rfl⟩ : True ∧ fs = fs' := by
      simp only [checkInputs, Prod.mk.injEq] at h
      exact ⟨trivial, h.2⟩
    refine ⟨by simp [lnIdsOf], by simp [lnIdsOf], ?_⟩
    intro c hc
    rcases hc with hc | hc
    · exact hc
    · simp [lnIdsOf] at hc
  | cons i rest ih =>
    intro fs fs' h
    cases i with
    | Mint coins =>
      unfold checkInputs at h
      split at h
      · cases h
      · obtain ⟨h1, h2, h3⟩ := ih _ _ h
        refine ⟨h1, h2, ?_⟩
        intro c hc
        exact h3 c hc
    | Wallet peg_in =>
      unfold checkInputs at h
      split at h
      · cases h
      · obtain ⟨h1, h2, h3⟩ := ih _ _ h
        refine ⟨h1, h2, ?_⟩
        intro c hc
        exact h3 c hc
    | LN input =>
      unfold checkInputs at h
      split at h
      · cases h
      · rename_i hnotin
        obtain ⟨h1, h2, h3⟩ := ih _ _ h
        have hids : lnIdsOf (TxInput.LN input :: rest) =
            input.crontract_id :: lnIdsOf rest := rfl
        refine ⟨?_, ?_, ?_⟩
        · rw [hids]
          refine List.nodup_cons.mpr ⟨?_, h1⟩
          intro hmem
          exact h2 input.crontract_id hmem (List.mem_cons_self _ _)
        · rw [hids]
          intro c hc
          rcases List.mem_cons.mp hc with rfl | hc
          · exact hnotin
          · intro hcin
            exact h2 c hc (List.mem_cons_of_mem _ hcin)
        · rw [hids]
          intro c hc
          apply h3
          rcases hc with hc | hc
          · exact Or.inl (List.mem_cons_of_mem _ hc)
          · rcases List.mem_cons.mp hc with rfl | hc
            · exact Or.inl (List.mem_cons_self _ _)
            · exact Or.inr hc

theorem collectFiltered_lnIds_nodup :
    ∀ (txs : List Transaction) (fs : FilterState),
    ((collectFiltered fs txs).flatMap lnIds).Nodup ∧
    (∀ c, c ∈ (collectFiltered fs txs).flatMap lnIds → c ∉ fs.in_contract_set) := by
  intro txs
  induction txs with
  | nil =>
    intro fs
    simp [collectFiltered]
  | cons tx rest ih =>
    intro fs
    cases hch : checkInputs fs tx.inputs with
    | mk ok fs1 =>
      cases ok with
      | false =>
        have hcol : collectFiltered fs (tx :: rest) = [] := by
          simp only [collectFiltered]
          rw [hch]
        rw [hcol]
        simp
      | true =>
        have hcol : collectFiltered fs (tx :: rest) = tx :: collectFiltered fs1 rest := by
          simp only [collectFiltered]
          rw [hch]
        rw [hcol]
        obtain ⟨h1, h2, h3⟩ := checkInputs_true_spec tx.inputs fs fs1 hch
        obtain ⟨g1, g2⟩ := ih fs1
        rw [List.flatMap_cons]
        constructor
        · refine List.Nodup.append h1 g1 ?_
          intro c hctx hcrest
          exact g2 c hcrest (h3 c (Or.inr hctx))
        · intro c hc
          rcases List.mem_append.mp hc with hc | hc
          · exact h2 c hc
          · intro hcin
            exact g2 c hc (h3 c (Or.inl hcin))

/-- C9: a successfully applied contract input debits an account that
validation proved sufficiently funded — for any `u64`-sized balance the
wrapping subtraction equals the exact one, so the stored balance never
underflows and stays a natural number — and the conflict filter admits at
most one spend of any given `ContractId` per epoch: the Lightning contract
ids spent by the transactions it yields are pairwise distinct. -/
theorem apply_input_no_underflow (cm : CryptoModel) :
    (∀ s input s' meta, apply_input cm s input = .ok (s', meta) →
      ∃ acc, lookupT s.contracts input.crontract_id = some acc ∧
        input.amount ≤ acc.amount ∧
        (acc.amount < 2 ^ 64 →
          u64sub acc.amount input.amount = acc.amount - input.amount ∧
          lookupT s'.contracts input.crontract_id =
            some { acc with amount := acc.amount - input.amount })) ∧
    (∀ txs, ((collectFiltered emptyFilterState txs).flatMap lnIds).Nodup) := by
  constructor
  · intro s input s' meta h
    obtain ⟨hval, hs⟩ := apply_input_ok_shape cm s input s' meta h
    obtain ⟨acc, hacc, hamt, hmeta⟩ := validate_input_ok_funds cm s input meta hval
    refine ⟨acc, hacc, Nat.le_of_not_lt hamt, ?_⟩
    intro hlt
    have hsub := u64sub_exact (Nat.le_of_not_lt hamt) hlt
    constructor
    · exact hsub
    · rw [hs]
      show lookupT (debitContract s.contracts input.crontract_id meta.amount)
        input.crontract_id = _
      unfold debitContract
      rw [hacc, hmeta, lookupT_setT_self, hsub]
  · intro txs
    exact (collectFiltered_lnIds_nodup txs emptyFilterState).1

theorem apply_input_no_underflow_witness :
    ∃ acc, lookupT sOutT.contracts 1 = some acc ∧
      5 ≤ acc.amount ∧
      (acc.amount < 2 ^ 64 →
        u64sub acc.amount 5 = acc.amount - 5 ∧
        lookupT (⟨[(1, ⟨5, FundedContract.Outgoing ⟨0, 100, 2, 3⟩⟩)], [], [], [], [],
            some ⟨100, 0, 0⟩⟩ : LnState).contracts 1 =
          some { acc with amount := acc.amount - 5 }) :=
  (apply_input_no_underflow cmT).1 sOutT ⟨1, 5, some [0]⟩
    ⟨[(1, ⟨5, FundedContract.Outgoing ⟨0, 100, 2, 3⟩⟩)], [], [], [], [], some ⟨100, 0, 0⟩⟩
    ⟨5, 3⟩ (by decide)

end Minimint
